import Mathlib

/-!
# Verification of the NHANES dimension-reduction notebook

This file embeds the data-manipulation pipeline of `nhanes_dimred.ipynb` and
proves the stated properties of its PCA computation.

The notebook pipeline is:
* `da = df.loc[:, bpx_vars + ["SEQN", "BPXPLS"]].dropna()` — column selection
  and silent removal of incomplete rows;
* `bpx_cor = np.corrcoef(da.loc[:, bpx_vars].T)` — the 6×6 correlation matrix;
* `eiv, eig = np.linalg.eig(bpx_cor)` — eigen-decomposition;
* `ii = np.argsort(eiv)[::-1]; eiv = eiv[ii]; eig = eig[:, ii]` — descending sort;
* `print(eiv**2 / np.sum(eiv**2))` — variance-explained proportions;
* `ds = da.loc[:, bpx_vars]; ds -= ds.mean(0); ds /= da.std(0)` — standardization;
* `scores = np.dot(ds, eig)` — PC scores.

Two embedding layers are used.

The *frame layer* models the pandas objects: a data frame is a list of column
labels together with a list of rows, where a row maps labels to `Option ℝ`
(`none` models a missing value, and also an IEEE non-finite result such as the
infinity or NaN produced by dividing by zero).  Binary operations between a
frame and a series follow pandas semantics: the operands are aligned on their
labels (taking the union, with `none` where a label is absent from one side),
and an in-place operation (`-=`, `/=`) reindexes the aligned result back to the
frame's own labels, exactly as `pandas.core.generic.NDFrame._inplace_method`
does via `reindex_like`.  Column selection with `.loc` yields a new frame (a
copy: pandas label-based column subsetting does not alias the source), so
operations on the copy never modify the filtered table.

The *math layer* models the numerical computations on real matrices, with
floating-point arithmetic idealized as real arithmetic (the spec's "within
floating-point tolerance" statements become exact equalities over `ℝ`).
`np.linalg.eig`, which is delegated to LAPACK by the notebook, is modelled on
its documented contract for a real symmetric input — real eigenvalues and an
orthonormal eigenvector matrix diagonalizing the input — realized through
Mathlib's spectral theorem.
-/

namespace NhanesDimred

open Matrix

/-- A cell of a pandas frame: `none` models a missing value (NaN from the data)
or a non-finite float produced by the arithmetic. -/
abbrev Val := Option ℝ

/-- A row of a frame, as a total map from column labels. Only the labels listed
in the owning frame's `cols` are meaningful. -/
abbrev Row := String → Val

/-- A pandas `DataFrame`: an ordered list of column labels and a list of rows. -/
structure Frame where
  cols : List String
  rows : List Row

/-- A pandas `Series` (as produced by `df.mean(0)` or `df.std(0)`): an index of
labels and a value for each label. -/
structure Series where
  idx : List String
  val : String → ℝ

/-- The six blood-pressure variables selected in the notebook. -/
def bpx_vars : List String :=
  ["BPXSY1", "BPXSY2", "BPXSY3", "BPXDI1", "BPXDI2", "BPXDI3"]

/-- The two extra columns kept in the filtered table `da`. -/
def keyVars : List String := ["SEQN", "BPXPLS"]

/-- `df.loc[:, cs]`: label-based column selection.  Returns a new frame (a
copy); the row maps are shared but never mutated in this embedding. -/
def loc (df : Frame) (cs : List String) : Frame := ⟨cs, df.rows⟩

/-- Cell lookup honouring the frame's column set: labels outside `f.cols` are
absent from the frame. -/
def fget (f : Frame) (r : Row) (c : String) : Val :=
  if c ∈ f.cols then r c else none

/-- A row is complete on a list of columns when none of those cells is missing. -/
def completeOn (cs : List String) (r : Row) : Bool :=
  cs.all fun c => (r c).isSome

/-- `df.dropna()`: silently remove every row with a missing value in any of the
frame's columns.  Total — no error is raised for the dropped rows. -/
def dropna (f : Frame) : Frame :=
  ⟨f.cols, f.rows.filter (completeOn f.cols)⟩

/-- The filtered table of the notebook:
`da = df.loc[:, bpx_vars + ["SEQN","BPXPLS"]].dropna()`. -/
def filterComplete (df : Frame) (cs : List String) : Frame :=
  dropna (loc df cs)

/-- C7: the missing-value filter keeps exactly the rows with no missing value
among the selected columns: a row is in the output iff it is a row of the input
that is complete on the selected columns; the output rows are a sublist of the
input rows (retained unchanged and in order, each row map the very same
function); and the resulting frame carries the selected columns.  The filter is
a total function: no error is produced for the dropped rows. -/
theorem dropna_keeps_exactly_complete_rows (df : Frame) (cs : List String) :
    (∀ r : Row, r ∈ (filterComplete df cs).rows ↔
        r ∈ df.rows ∧ ∀ c ∈ cs, (r c).isSome) ∧
    (filterComplete df cs).rows.Sublist df.rows ∧
    (filterComplete df cs).cols = cs := by
  refine ⟨fun r => ?_, ?_, rfl⟩
  · simp [filterComplete, dropna, loc, completeOn, List.mem_filter,
      List.all_eq_true]
  · exact List.filter_sublist _

/-! ## Column statistics of a frame

`df.mean(0)` and `df.std(0)` of the notebook.  The filtered table these are
applied to is complete, so reading a cell with `Option.getD 0` is exact there.
`std` is the pandas default sample standard deviation (divisor `n - 1`). -/

/-- Mean of one column. -/
noncomputable def colMeanF (f : Frame) (c : String) : ℝ :=
  (f.rows.map fun r => (r c).getD 0).sum / f.rows.length

/-- Sample variance of one column (divisor `n - 1`, the pandas default). -/
noncomputable def colVarF (f : Frame) (c : String) : ℝ :=
  (f.rows.map fun r => ((r c).getD 0 - colMeanF f c) ^ 2).sum /
    ((f.rows.length : ℝ) - 1)

/-- Sample standard deviation of one column: `da.std(0)` entries. -/
noncomputable def colStdF (f : Frame) (c : String) : ℝ :=
  Real.sqrt (colVarF f c)

/-- `f.mean(0)`: the series of column means, indexed by the frame's columns. -/
noncomputable def meanSeries (f : Frame) : Series := ⟨f.cols, colMeanF f⟩

/-- `f.std(0)`: the series of column standard deviations, indexed by the
frame's columns. -/
noncomputable def stdSeries (f : Frame) : Series := ⟨f.cols, colStdF f⟩

/-- Series lookup: `none` when the label is absent from the index. -/
def sget (s : Series) (c : String) : Val :=
  if c ∈ s.idx then some (s.val c) else none

/-- Union of two label lists, first operand's labels first (pandas alignment). -/
def unionCols (cs ds : List String) : List String :=
  cs ++ ds.filter fun c => !(cs.contains c)

/-- One row of an aligned frame/series binary operation: a cell is `none`
(NaN) whenever the label is missing on either side or the cell itself is
missing/non-finite. -/
def binopRow (op : ℝ → ℝ → Val) (f : Frame) (s : Series) (r : Row) : Row :=
  fun c =>
    match fget f r c, sget s c with
    | some x, some y => op x y
    | _, _ => none

/-- Aligned binary operation between a frame and a series, as pandas performs
for `df - s` or `df / s`: the result has the union of the labels. -/
def binop (op : ℝ → ℝ → Val) (f : Frame) (s : Series) : Frame :=
  ⟨unionCols f.cols s.idx, f.rows.map (binopRow op f s)⟩

/-- `g.reindex_like(f)`: restrict `g` to the column labels of `f`. -/
def reindexLike (g : Frame) (f : Frame) : Frame := ⟨f.cols, g.rows⟩

/-- In-place aligned operation `f op= s`, following
`pandas.core.generic.NDFrame._inplace_method`: compute the aligned result, then
reindex it back to the frame's own labels. -/
def ibinop (op : ℝ → ℝ → Val) (f : Frame) (s : Series) : Frame :=
  reindexLike (binop op f s) f

/-- Float subtraction of finite operands: always finite. -/
def subv (x y : ℝ) : Val := some (x - y)

/-- Float division: a zero divisor yields an IEEE non-finite result (an
infinity or NaN), modelled as `none`; otherwise the real quotient. -/
noncomputable def fdiv (x y : ℝ) : Val := if y = 0 then none else some (x / y)

/-- The standardized copy of the notebook:
`ds = da.loc[:, bpx_vars]; ds -= ds.mean(0); ds /= da.std(0)`.
The divisor series `da.std(0)` is indexed by all of `da`'s columns (the six
blood-pressure variables plus `SEQN` and `BPXPLS`). -/
noncomputable def dsFrame (da : Frame) : Frame :=
  let ds0 := loc da bpx_vars
  let ds1 := ibinop subv ds0 (meanSeries ds0)
  ibinop fdiv ds1 (stdSeries da)

/-- The all-missing row, used as the out-of-range default for row lookups. -/
def blankRow : Row := fun _ => none

theorem binopRow_blank (op : ℝ → ℝ → Val) (f : Frame) (s : Series) :
    binopRow op f s blankRow = blankRow := by
  funext c
  simp only [binopRow, blankRow, fget, ite_self]

theorem getD_map_of_fixed {l : List Row} {g : Row → Row}
    (hg : g blankRow = blankRow) (i : ℕ) :
    (l.map g).getD i blankRow = g (l.getD i blankRow) := by
  rcases lt_or_le i l.length with hi | hi
  · rw [List.getD_eq_getElem _ _ (by simpa using hi),
      List.getD_eq_getElem _ _ hi, List.getElem_map]
  · rw [List.getD_eq_default _ _ (by simpa using hi),
      List.getD_eq_default _ _ hi, hg]

theorem colMeanF_loc (da : Frame) (cs : List String) (c : String) :
    colMeanF (loc da cs) c = colMeanF da c := rfl

/-- Row `i` of the standardized copy, as the composite of the two in-place
aligned operations applied to row `i` of the filtered table. -/
theorem dsFrame_row (da : Frame) (i : ℕ) :
    (dsFrame da).rows.getD i blankRow =
      binopRow fdiv
        (ibinop subv (loc da bpx_vars) (meanSeries (loc da bpx_vars)))
        (stdSeries da)
        (binopRow subv (loc da bpx_vars) (meanSeries (loc da bpx_vars))
          (da.rows.getD i blankRow)) := by
  have h2 : (dsFrame da).rows =
      (da.rows.map
        (binopRow subv (loc da bpx_vars) (meanSeries (loc da bpx_vars)))).map
        (binopRow fdiv
          (ibinop subv (loc da bpx_vars) (meanSeries (loc da bpx_vars)))
          (stdSeries da)) := rfl
  rw [h2, getD_map_of_fixed (binopRow_blank _ _ _),
    getD_map_of_fixed (binopRow_blank _ _ _)]

/-- C1: standardization subtracts each selected column's mean and divides by
that same column's standard deviation (the divisor series being `da.std(0)`,
computed over the full filtered table whose columns also include `SEQN` and
`BPXPLS`), and the standardized copy has exactly the six selected columns, in
order, with one row per row of the filtered table. -/
theorem standardize_is_center_scale_per_column (da : Frame)
    (hcols : da.cols = bpx_vars ++ keyVars)
    (hstd : ∀ c ∈ bpx_vars, colStdF da c ≠ 0) :
    (dsFrame da).cols = bpx_vars ∧
    (dsFrame da).rows.length = da.rows.length ∧
    ∀ i : ℕ, ∀ c ∈ bpx_vars,
      (dsFrame da).rows.getD i blankRow c =
        (da.rows.getD i blankRow c).map
          fun x => (x - colMeanF da c) / colStdF da c := by
  refine ⟨rfl, by simp [dsFrame, ibinop, reindexLike, binop, loc], ?_⟩
  intro i c hc
  have hcda : c ∈ da.cols := by simp [hcols, hc]
  rw [dsFrame_row]
  cases hval : da.rows.getD i blankRow c with
  | none =>
      simp [binopRow, fget, sget, loc, ibinop, reindexLike, binop,
        meanSeries, stdSeries, hc, hcda, hval]
  | some x =>
      simp [binopRow, fget, sget, loc, ibinop, reindexLike, binop,
        meanSeries, stdSeries, hc, hcda, hval, subv, fdiv, hstd c hc]
      rfl

/-- C8: if a selected column of the filtered table has zero standard
deviation, the standardization step still runs to completion — it is a total
function, with no guard on the divisor — and the division fills that column of
the standardized copy with non-finite values (IEEE infinity or NaN, modelled
as `none`): every cell of that column of the result is non-finite. -/
theorem zero_variance_column_is_nonfinite (da : Frame) (c : String)
    (hc : c ∈ bpx_vars) (hcda : c ∈ da.cols)
    (hstd : colStdF da c = 0) :
    (dsFrame da).cols = bpx_vars ∧
    ∀ i : ℕ, (dsFrame da).rows.getD i blankRow c = none := by
  refine ⟨rfl, fun i => ?_⟩
  rw [dsFrame_row]
  cases hval : da.rows.getD i blankRow c with
  | none =>
      simp [binopRow, fget, sget, loc, ibinop, reindexLike, binop,
        meanSeries, stdSeries, hc, hcda, hval]
  | some x =>
      simp [binopRow, fget, sget, loc, ibinop, reindexLike, binop,
        meanSeries, stdSeries, hc, hcda, hval, subv, fdiv, hstd]

/-- A two-row table, complete, whose columns are all constant: every column
has zero sample variance, hence zero standard deviation. -/
def constFrame : Frame :=
  ⟨bpx_vars ++ keyVars, [fun _ => some 5, fun _ => some 5]⟩

theorem zero_variance_column_is_nonfinite_witness :
    "BPXSY1" ∈ bpx_vars ∧ "BPXSY1" ∈ constFrame.cols ∧
    colStdF constFrame "BPXSY1" = 0 ∧
    ((dsFrame constFrame).cols = bpx_vars ∧
      ∀ i : ℕ, (dsFrame constFrame).rows.getD i blankRow "BPXSY1" = none) := by
  have h1 : "BPXSY1" ∈ bpx_vars := by simp [bpx_vars]
  have h2 : "BPXSY1" ∈ constFrame.cols := by simp [constFrame, bpx_vars]
  have hv : colVarF constFrame "BPXSY1" = 0 := by
    simp [colVarF, colMeanF, constFrame]
  have h3 : colStdF constFrame "BPXSY1" = 0 := by
    rw [colStdF, hv, Real.sqrt_zero]
  exact ⟨h1, h2, h3,
    zero_variance_column_is_nonfinite constFrame "BPXSY1" h1 h2 h3⟩

/-! ## The standardization/scoring cell leaves the filtered table untouched -/

/-- The notebook's variable bindings around the standardization-and-scores
cell: the filtered table `da`, the standardized copy `ds`, and the scores. -/
structure NotebookState where
  da : Frame
  ds : Frame
  scores : List (Fin 6 → ℝ)

/-- The six blood-pressure column names, indexed. -/
def bpxVar (j : Fin 6) : String := bpx_vars.getD j ""

/-- `scores = np.dot(ds, eig)`: each observation row of the standardized copy
is projected onto the (sorted) eigenvector columns. -/
noncomputable def scoresOf (ds : Frame) (eig : Matrix (Fin 6) (Fin 6) ℝ) :
    List (Fin 6 → ℝ) :=
  ds.rows.map fun r => fun k => ∑ j, (r (bpxVar j)).getD 0 * eig j k

/-- Execution of the standardization-and-scores cell of the notebook:
`ds = da.loc[:, bpx_vars]; ds -= ds.mean(0); ds /= da.std(0);
scores = np.dot(ds, eig)`.  `.loc` column selection produces a copy, so the
in-place operations rebind `ds` without touching `da`. -/
noncomputable def runStandardizeAndScore (eig : Matrix (Fin 6) (Fin 6) ℝ)
    (st : NotebookState) : NotebookState :=
  let ds := dsFrame st.da
  ⟨st.da, ds, scoresOf ds eig⟩

/-- C10: after the missing-value filtering, the filtered table is never
mutated: running the standardization and score-projection cell leaves the
column list and every cell of the filtered table `da` unchanged — the mean
subtraction and division operate on the separately derived copy `ds`. -/
theorem filtered_table_never_mutated (eig : Matrix (Fin 6) (Fin 6) ℝ)
    (st : NotebookState) :
    (runStandardizeAndScore eig st).da.cols = st.da.cols ∧
    ∀ i : ℕ, ∀ c : String,
      (runStandardizeAndScore eig st).da.rows.getD i blankRow c =
        st.da.rows.getD i blankRow c :=
  ⟨rfl, fun _ _ => rfl⟩

/-- A two-row complete table whose columns all take the two distinct values
0 and 2, so every column has positive sample variance. -/
def twoRowFrame : Frame :=
  ⟨bpx_vars ++ keyVars, [fun _ => some 0, fun _ => some 2]⟩

theorem standardize_is_center_scale_per_column_witness :
    twoRowFrame.cols = bpx_vars ++ keyVars ∧
    (∀ c ∈ bpx_vars, colStdF twoRowFrame c ≠ 0) ∧
    ((dsFrame twoRowFrame).cols = bpx_vars ∧
      (dsFrame twoRowFrame).rows.length = twoRowFrame.rows.length ∧
      ∀ i : ℕ, ∀ c ∈ bpx_vars,
        (dsFrame twoRowFrame).rows.getD i blankRow c =
          (twoRowFrame.rows.getD i blankRow c).map
            fun x => (x - colMeanF twoRowFrame c) / colStdF twoRowFrame c) := by
  have h2 : ∀ c ∈ bpx_vars, colStdF twoRowFrame c ≠ 0 := by
    intro c _
    have hvar : colVarF twoRowFrame c = 2 := by
      simp [colVarF, colMeanF, twoRowFrame]
      norm_num
    rw [colStdF, hvar]
    exact Real.sqrt_ne_zero'.mpr (by norm_num)
  exact ⟨rfl, h2,
    standardize_is_center_scale_per_column twoRowFrame rfl h2⟩

/-! ## Math layer: column statistics and the correlation matrix

An observation table is a real matrix whose rows are observations and whose
columns are variables.  `corrcoef` is `np.corrcoef(X.T)`: the sample
covariance matrix with each entry divided by the product of the two standard
deviations.  (NumPy computes exactly `cov i j / sqrt (cov i i * cov j j)`;
its final clipping of the entries to `[-1, 1]` only compensates floating-point
rounding and is the identity in real arithmetic.) -/

/-- Column mean of an observation matrix. -/
noncomputable def colMean {n m : ℕ} (X : Matrix (Fin n) (Fin m) ℝ)
    (j : Fin m) : ℝ :=
  (∑ r, X r j) / n

/-- Sample variance of a column (divisor `n - 1`). -/
noncomputable def colVar {n m : ℕ} (X : Matrix (Fin n) (Fin m) ℝ)
    (j : Fin m) : ℝ :=
  (∑ r, (X r j - colMean X j) ^ 2) / ((n : ℝ) - 1)

/-- Sample standard deviation of a column. -/
noncomputable def colStd {n m : ℕ} (X : Matrix (Fin n) (Fin m) ℝ)
    (j : Fin m) : ℝ :=
  Real.sqrt (colVar X j)

/-- Sample covariance matrix of the columns (divisor `n - 1`). -/
noncomputable def covMatrix {n m : ℕ} (X : Matrix (Fin n) (Fin m) ℝ) :
    Matrix (Fin m) (Fin m) ℝ :=
  Matrix.of fun i j =>
    (∑ r, (X r i - colMean X i) * (X r j - colMean X j)) / ((n : ℝ) - 1)

/-- `np.corrcoef` of the columns of the observation matrix. -/
noncomputable def corrcoef {n m : ℕ} (X : Matrix (Fin n) (Fin m) ℝ) :
    Matrix (Fin m) (Fin m) ℝ :=
  Matrix.of fun i j => covMatrix X i j / (colStd X i * colStd X j)

theorem covMatrix_symm {n m : ℕ} (X : Matrix (Fin n) (Fin m) ℝ)
    (i j : Fin m) : covMatrix X i j = covMatrix X j i := by
  unfold covMatrix
  simp only [Matrix.of_apply]
  rw [Finset.sum_congr rfl fun r _ => mul_comm _ _]

theorem covMatrix_diag {n m : ℕ} (X : Matrix (Fin n) (Fin m) ℝ)
    (i : Fin m) : covMatrix X i i = colVar X i := by
  simp [covMatrix, colVar, pow_two]

theorem corrcoef_symm {n m : ℕ} (X : Matrix (Fin n) (Fin m) ℝ) :
    (corrcoef X).IsSymm := by
  unfold Matrix.IsSymm
  ext i j
  simp only [Matrix.transpose_apply, corrcoef, Matrix.of_apply]
  rw [covMatrix_symm, mul_comm]

/-- C9: every correlation matrix computed from a (nondegenerate) filtered
observation table is square (it is an `m × m` matrix by construction),
symmetric, has every diagonal entry equal to 1, and has every off-diagonal
entry in `[-1, 1]`. -/
theorem corr_matrix_invariants {n m : ℕ} (X : Matrix (Fin n) (Fin m) ℝ)
    (hn : 2 ≤ n) (hv : ∀ j, 0 < colVar X j) :
    (corrcoef X).IsSymm ∧
    (∀ i, corrcoef X i i = 1) ∧
    ∀ i j, i ≠ j → -1 ≤ corrcoef X i j ∧ corrcoef X i j ≤ 1 := by
  have hd : (0 : ℝ) < (n : ℝ) - 1 := by
    have : (2 : ℝ) ≤ (n : ℝ) := by exact_mod_cast hn
    linarith
  refine ⟨corrcoef_symm X, fun i => ?_, fun i j _ => ?_⟩
  · have hvi := hv i
    simp only [corrcoef, Matrix.of_apply, covMatrix_diag, colStd]
    rw [Real.mul_self_sqrt hvi.le, div_self hvi.ne']
  · -- Cauchy-Schwarz: the squared entry is at most 1.
    have hvi := hv i
    have hvj := hv j
    have hcs : (∑ r, (X r i - colMean X i) * (X r j - colMean X j)) ^ 2 ≤
        (∑ r, (X r i - colMean X i) ^ 2) * ∑ r, (X r j - colMean X j) ^ 2 :=
      Finset.sum_mul_sq_le_sq_mul_sq Finset.univ _ _
    have hcov : covMatrix X i j ^ 2 ≤ colVar X i * colVar X j := by
      unfold covMatrix colVar
      simp only [Matrix.of_apply]
      rw [div_pow, div_mul_div_comm]
      exact div_le_div_of_nonneg_right hcs (by positivity) |>.trans_eq
        (by rw [pow_two])
    have hP : colStd X i * colStd X j > 0 := by
      unfold colStd
      positivity
    have hP2 : (colStd X i * colStd X j) ^ 2 = colVar X i * colVar X j := by
      unfold colStd
      rw [mul_pow, Real.sq_sqrt hvi.le, Real.sq_sqrt hvj.le]
    have hsq : corrcoef X i j ^ 2 ≤ 1 := by
      simp only [corrcoef, Matrix.of_apply]
      rw [div_pow, hP2, div_le_one (by positivity)]
      exact hcov
    exact abs_le.mp ((sq_le_one_iff_abs_le_one _).mp hsq)

/-- A concrete 2-observation, 1-variable table taking the values 0 and 2, so
the single column has sample variance 2 > 0. -/
noncomputable def obsW : Matrix (Fin 2) (Fin 1) ℝ :=
  Matrix.of fun r _ => if r = 0 then 0 else 2

theorem obsW_colVar (j : Fin 1) : colVar obsW j = 2 := by
  simp [colVar, colMean, obsW, Fin.sum_univ_two]
  norm_num

theorem corr_matrix_invariants_witness :
    ((2 ≤ 2) ∧ ∀ j : Fin 1, 0 < colVar obsW j) ∧
    ((corrcoef obsW).IsSymm ∧ (∀ i, corrcoef obsW i i = 1) ∧
      ∀ i j, i ≠ j → -1 ≤ corrcoef obsW i j ∧ corrcoef obsW i j ≤ 1) := by
  have hv : ∀ j : Fin 1, 0 < colVar obsW j := by
    intro j
    rw [obsW_colVar]
    norm_num
  exact ⟨⟨le_refl 2, hv⟩, corr_matrix_invariants obsW (le_refl 2) hv⟩

/-! ## Eigen-decomposition

`eiv, eig = np.linalg.eig(bpx_cor)`.  The notebook applies `np.linalg.eig`
only to a symmetric real matrix (a correlation matrix), and then checks
numerically that the output diagonalizes the input and that the eigenvector
matrix is orthogonal.  The routine itself is LAPACK code external to the
repository; it is modelled on its documented contract for a real symmetric
input — real eigenvalues together with an orthonormal eigenvector matrix
diagonalizing the input — realized through Mathlib's spectral theorem.  On a
non-symmetric input (never produced by the notebook) the model returns a
default value. -/

/-- Model of `np.linalg.eig` on real symmetric input: the pair
(eigenvalues, eigenvector matrix). -/
noncomputable def linalgEig {m : ℕ} (A : Matrix (Fin m) (Fin m) ℝ) :
    (Fin m → ℝ) × Matrix (Fin m) (Fin m) ℝ :=
  letI := Classical.dec A.IsHermitian
  if h : A.IsHermitian then
    (h.eigenvalues, (h.eigenvectorUnitary : Matrix (Fin m) (Fin m) ℝ))
  else (fun _ => 0, 1)

theorem linalgEig_of_hermitian {m : ℕ} {A : Matrix (Fin m) (Fin m) ℝ}
    (h : A.IsHermitian) :
    linalgEig A =
      (h.eigenvalues, (h.eigenvectorUnitary : Matrix (Fin m) (Fin m) ℝ)) := by
  unfold linalgEig
  rw [dif_pos h]

/-- A real symmetric matrix is Hermitian. -/
theorem corrcoef_isHermitian {n m : ℕ} (X : Matrix (Fin n) (Fin m) ℝ) :
    (corrcoef X).IsHermitian := by
  rw [Matrix.IsHermitian, Matrix.conjTranspose_eq_transpose_of_trivial]
  exact corrcoef_symm X

/-- C2: for the eigen-decomposition computed from the blood-pressure
correlation matrix, eigenvector-matrix × diagonal(eigenvalues) ×
eigenvector-matrix-transpose equals the correlation matrix (exactly, in the
real-arithmetic idealization of the notebook's floating-point tolerance). -/
theorem eig_reconstructs_corr_matrix {n : ℕ} (X : Matrix (Fin n) (Fin 6) ℝ) :
    (linalgEig (corrcoef X)).2 * Matrix.diagonal (linalgEig (corrcoef X)).1 *
      ((linalgEig (corrcoef X)).2)ᵀ = corrcoef X := by
  have h := corrcoef_isHermitian X
  rw [linalgEig_of_hermitian h]
  conv_rhs => rw [h.spectral_theorem]
  rw [Matrix.star_eq_conjTranspose, Matrix.conjTranspose_eq_transpose_of_trivial,
    RCLike.ofReal_real_eq_id, Function.id_comp]

/-- C3: the computed eigenvector matrix times its own transpose is the 6×6
identity matrix — the eigenvectors are mutually orthonormal. -/
theorem eig_matrix_orthonormal {n : ℕ} (X : Matrix (Fin n) (Fin 6) ℝ) :
    (linalgEig (corrcoef X)).2 * ((linalgEig (corrcoef X)).2)ᵀ =
      (1 : Matrix (Fin 6) (Fin 6) ℝ) := by
  have h := corrcoef_isHermitian X
  rw [linalgEig_of_hermitian h]
  have hu := h.eigenvectorUnitary.2
  rw [Matrix.mem_unitaryGroup_iff] at hu
  rw [← Matrix.conjTranspose_eq_transpose_of_trivial, ← Matrix.star_eq_conjTranspose]
  exact hu

/-! ## Sorting the eigen-pairs

`ii = np.argsort(eiv)[::-1]; eiv = eiv[ii]; eig = eig[:, ii]`:
`np.argsort` produces the indices of the ascending arrangement of `eiv`;
reversing them arranges the eigenvalues in descending order, and the same
index list is applied to the columns of `eig`. -/

/-- `np.argsort(eiv)[::-1]` as a permutation: position `k` of the descending
arrangement holds original index `argsortDesc v k`. -/
noncomputable def argsortDesc {m : ℕ} (v : Fin m → ℝ) : Equiv.Perm (Fin m) :=
  Fin.revPerm.trans (Tuple.sort v)

/-- `eiv = eiv[ii]`: the eigenvalues after the descending rearrangement. -/
noncomputable def sortedEiv {m : ℕ} (v : Fin m → ℝ) : Fin m → ℝ :=
  fun k => v (argsortDesc v k)

/-- `eig = eig[:, ii]`: the eigenvector columns after the same rearrangement. -/
noncomputable def sortedEig {m : ℕ} (v : Fin m → ℝ)
    (Q : Matrix (Fin m) (Fin m) ℝ) : Matrix (Fin m) (Fin m) ℝ :=
  Matrix.of fun i k => Q i (argsortDesc v k)

/-- C5: after the sorting step the eigenvalue sequence is non-increasing, and
the eigenvector columns are rearranged by the very same permutation
`argsortDesc` as the eigenvalues, so each column stays paired with its own
eigenvalue: if every original column was an eigenvector for its eigenvalue,
every sorted column is an eigenvector for its sorted eigenvalue. -/
theorem sorted_eigenpairs {m : ℕ} (A : Matrix (Fin m) (Fin m) ℝ)
    (v : Fin m → ℝ) (Q : Matrix (Fin m) (Fin m) ℝ)
    (hAQ : ∀ k, A.mulVec (fun i => Q i k) = v k • fun i => Q i k) :
    Antitone (sortedEiv v) ∧
    (∀ k, sortedEiv v k = v (argsortDesc v k) ∧
      ∀ i, sortedEig v Q i k = Q i (argsortDesc v k)) ∧
    ∀ k, A.mulVec (fun i => sortedEig v Q i k) =
      sortedEiv v k • fun i => sortedEig v Q i k := by
  refine ⟨?_, fun k => ⟨rfl, fun i => rfl⟩, fun k => hAQ (argsortDesc v k)⟩
  intro a b hab
  exact Tuple.monotone_sort v (Fin.rev_le_rev.mpr hab)

theorem sorted_eigenpairs_witness :
    (∀ k : Fin 2, (0 : Matrix (Fin 2) (Fin 2) ℝ).mulVec
        (fun i => (1 : Matrix (Fin 2) (Fin 2) ℝ) i k) =
      (fun _ : Fin 2 => (0 : ℝ)) k • fun i => (1 : Matrix (Fin 2) (Fin 2) ℝ) i k) ∧
    (Antitone (sortedEiv fun _ : Fin 2 => (0 : ℝ)) ∧
      (∀ k, sortedEiv (fun _ : Fin 2 => (0 : ℝ)) k =
          (fun _ : Fin 2 => (0 : ℝ)) (argsortDesc (fun _ : Fin 2 => (0 : ℝ)) k) ∧
        ∀ i, sortedEig (fun _ : Fin 2 => (0 : ℝ)) 1 i k =
          (1 : Matrix (Fin 2) (Fin 2) ℝ) i (argsortDesc (fun _ : Fin 2 => (0 : ℝ)) k)) ∧
      ∀ k, (0 : Matrix (Fin 2) (Fin 2) ℝ).mulVec
          (fun i => sortedEig (fun _ : Fin 2 => (0 : ℝ)) 1 i k) =
        sortedEiv (fun _ : Fin 2 => (0 : ℝ)) k •
          fun i => sortedEig (fun _ : Fin 2 => (0 : ℝ)) 1 i k) := by
  have h : ∀ k : Fin 2, (0 : Matrix (Fin 2) (Fin 2) ℝ).mulVec
      (fun i => (1 : Matrix (Fin 2) (Fin 2) ℝ) i k) =
      (fun _ : Fin 2 => (0 : ℝ)) k • fun i => (1 : Matrix (Fin 2) (Fin 2) ℝ) i k := by
    intro k
    simp [Matrix.zero_mulVec]
  exact ⟨h, sorted_eigenpairs 0 (fun _ => 0) 1 h⟩

/-! ## Variance-explained proportions -/

/-- `eiv**2 / np.sum(eiv**2)` applied to the sorted eigenvalues: the printed
variance-explained proportion of each principal component. -/
noncomputable def varExplained {m : ℕ} (v : Fin m → ℝ) : Fin m → ℝ :=
  fun k => sortedEiv v k ^ 2 / ∑ j, sortedEiv v j ^ 2

theorem sum_sq_sortedEiv {m : ℕ} (v : Fin m → ℝ) :
    (∑ j, sortedEiv v j ^ 2) = ∑ j, v j ^ 2 :=
  Equiv.sum_comp (argsortDesc v) fun j => v j ^ 2

/-- C4: the variance-explained proportion printed for component `k` is the
square of the `k`-th sorted eigenvalue divided by the sum of the squares of
all the eigenvalues; each proportion is non-negative, and over all components
the proportions sum to 1. -/
theorem variance_explained_props {m : ℕ} (v : Fin m → ℝ)
    (hv : (∑ j, v j ^ 2) ≠ 0) :
    (∀ k, varExplained v k = sortedEiv v k ^ 2 / ∑ j, sortedEiv v j ^ 2) ∧
    (∀ k, 0 ≤ varExplained v k) ∧
    (∑ k, varExplained v k) = 1 := by
  refine ⟨fun k => rfl, fun k => ?_, ?_⟩
  · exact div_nonneg (sq_nonneg _) (Finset.sum_nonneg fun j _ => sq_nonneg _)
  · rw [show (∑ k, varExplained v k) =
        (∑ k, sortedEiv v k ^ 2) / ∑ j, sortedEiv v j ^ 2 from
      (Finset.sum_div _ _ _).symm, sum_sq_sortedEiv, div_self hv]

theorem variance_explained_props_witness :
    ((∑ j : Fin 2, (fun _ : Fin 2 => (1 : ℝ)) j ^ 2) ≠ 0) ∧
    ((∀ k, varExplained (fun _ : Fin 2 => (1 : ℝ)) k =
        sortedEiv (fun _ : Fin 2 => (1 : ℝ)) k ^ 2 /
          ∑ j, sortedEiv (fun _ : Fin 2 => (1 : ℝ)) j ^ 2) ∧
      (∀ k, 0 ≤ varExplained (fun _ : Fin 2 => (1 : ℝ)) k) ∧
      (∑ k, varExplained (fun _ : Fin 2 => (1 : ℝ)) k) = 1) := by
  have hv : (∑ j : Fin 2, (fun _ : Fin 2 => (1 : ℝ)) j ^ 2) ≠ 0 := by
    rw [Fin.sum_univ_two]
    norm_num
  exact ⟨hv, variance_explained_props (fun _ => 1) hv⟩

/-! ## The PC scores

`ds = da.loc[:, bpx_vars]; ds -= ds.mean(0); ds /= da.std(0);
scores = np.dot(ds, eig)` in matrix form: the standardized observation matrix
multiplied by the sorted eigenvector matrix. -/

/-- The standardized observation matrix: each column centered by its mean and
divided by its sample standard deviation. -/
noncomputable def standardizeM {n m : ℕ} (X : Matrix (Fin n) (Fin m) ℝ) :
    Matrix (Fin n) (Fin m) ℝ :=
  Matrix.of fun r j => (X r j - colMean X j) / colStd X j

/-- The scores matrix of the notebook: standardized observations projected
onto the sorted eigenvector columns of the correlation matrix. -/
noncomputable def scoresM {n m : ℕ} (X : Matrix (Fin n) (Fin m) ℝ) :
    Matrix (Fin n) (Fin m) ℝ :=
  standardizeM X *
    sortedEig (linalgEig (corrcoef X)).1 (linalgEig (corrcoef X)).2

theorem sum_sub_colMean {n m : ℕ} (X : Matrix (Fin n) (Fin m) ℝ) (j : Fin m)
    (hn : (n : ℝ) ≠ 0) : (∑ r, (X r j - colMean X j)) = 0 := by
  rw [Finset.sum_sub_distrib, Finset.sum_const, Finset.card_univ,
    Fintype.card_fin, colMean, nsmul_eq_mul]
  field_simp

theorem sum_standardize_col {n m : ℕ} (X : Matrix (Fin n) (Fin m) ℝ)
    (j : Fin m) (hn : (n : ℝ) ≠ 0) : (∑ r, standardizeM X r j) = 0 := by
  unfold standardizeM
  simp only [Matrix.of_apply]
  rw [← Finset.sum_div, sum_sub_colMean X j hn, zero_div]

theorem colMean_scores_zero {n m : ℕ} (X : Matrix (Fin n) (Fin m) ℝ)
    (Q : Matrix (Fin m) (Fin m) ℝ) (k : Fin m) (hn : (n : ℝ) ≠ 0) :
    colMean (standardizeM X * Q) k = 0 := by
  unfold colMean
  rw [div_eq_zero_iff]
  left
  calc (∑ r, (standardizeM X * Q) r k)
      = ∑ r, ∑ j, standardizeM X r j * Q j k := by
        exact Finset.sum_congr rfl fun r _ => Matrix.mul_apply
    _ = ∑ j, ∑ r, standardizeM X r j * Q j k := Finset.sum_comm
    _ = ∑ j, (∑ r, standardizeM X r j) * Q j k := by
        exact Finset.sum_congr rfl fun j _ => (Finset.sum_mul _ _ _).symm
    _ = 0 := by
        refine Finset.sum_eq_zero fun j _ => ?_
        rw [sum_standardize_col X j hn, zero_mul]

/-- The Gram matrix of the standardized data is `n - 1` times the correlation
matrix. -/
theorem gram_standardize {n m : ℕ} (X : Matrix (Fin n) (Fin m) ℝ)
    (hn : 2 ≤ n) (hv : ∀ j, 0 < colVar X j) (j j' : Fin m) :
    (∑ r, standardizeM X r j * standardizeM X r j') =
      ((n : ℝ) - 1) * corrcoef X j j' := by
  have hd : ((n : ℝ) - 1) ≠ 0 := by
    have : (2 : ℝ) ≤ (n : ℝ) := by exact_mod_cast hn
    linarith
  calc (∑ r, standardizeM X r j * standardizeM X r j')
      = ∑ r, ((X r j - colMean X j) * (X r j' - colMean X j')) /
          (colStd X j * colStd X j') := by
        refine Finset.sum_congr rfl fun r _ => ?_
        unfold standardizeM
        simp only [Matrix.of_apply]
        rw [div_mul_div_comm]
    _ = (∑ r, (X r j - colMean X j) * (X r j' - colMean X j')) /
          (colStd X j * colStd X j') := by
        rw [Finset.sum_div]
    _ = ((n : ℝ) - 1) * corrcoef X j j' := by
        unfold corrcoef covMatrix
        simp only [Matrix.of_apply]
        rw [div_div, mul_div_assoc']
        rw [mul_div_mul_left _ _ hd]

/-- Sample covariance of the projected standardized data, as the conjugation
of the correlation matrix by the projection matrix. -/
theorem covMatrix_scores {n m : ℕ} (X : Matrix (Fin n) (Fin m) ℝ)
    (Q : Matrix (Fin m) (Fin m) ℝ) (hn : 2 ≤ n) (hv : ∀ j, 0 < colVar X j)
    (k l : Fin m) :
    covMatrix (standardizeM X * Q) k l = (Qᵀ * (corrcoef X * Q)) k l := by
  have hn0 : (n : ℝ) ≠ 0 := by
    have : (0 : ℕ) < n := lt_of_lt_of_le (by norm_num) hn
    exact_mod_cast this.ne'
  have hd : ((n : ℝ) - 1) ≠ 0 := by
    have : (2 : ℝ) ≤ (n : ℝ) := by exact_mod_cast hn
    linarith
  have hmk := colMean_scores_zero X Q k hn0
  have hml := colMean_scores_zero X Q l hn0
  have expand : ∀ j j' : Fin m,
      (∑ r, (standardizeM X r j * Q j k) * (standardizeM X r j' * Q j' l)) =
        Q j k * Q j' l * (((n : ℝ) - 1) * corrcoef X j j') := by
    intro j j'
    rw [← gram_standardize X hn hv j j', Finset.mul_sum]
    exact Finset.sum_congr rfl fun r _ => by ring
  unfold covMatrix
  simp only [Matrix.of_apply, hmk, hml, sub_zero]
  have key : (∑ r, (standardizeM X * Q) r k * (standardizeM X * Q) r l) =
      ((n : ℝ) - 1) * (Qᵀ * (corrcoef X * Q)) k l := by
    calc (∑ r, (standardizeM X * Q) r k * (standardizeM X * Q) r l)
        = ∑ r, ∑ j, ∑ j',
            (standardizeM X r j * Q j k) * (standardizeM X r j' * Q j' l) := by
          refine Finset.sum_congr rfl fun r _ => ?_
          rw [Matrix.mul_apply, Matrix.mul_apply, Finset.sum_mul_sum]
      _ = ∑ j, ∑ j', ∑ r,
            (standardizeM X r j * Q j k) * (standardizeM X r j' * Q j' l) := by
          rw [Finset.sum_comm]
          exact Finset.sum_congr rfl fun j _ => Finset.sum_comm
      _ = ∑ j, ∑ j', Q j k * Q j' l * (((n : ℝ) - 1) * corrcoef X j j') := by
          exact Finset.sum_congr rfl fun j _ =>
            Finset.sum_congr rfl fun j' _ => expand j j'
      _ = ((n : ℝ) - 1) * ∑ j, Q j k * ∑ j', corrcoef X j j' * Q j' l := by
          rw [Finset.mul_sum]
          refine Finset.sum_congr rfl fun j _ => ?_
          rw [Finset.mul_sum, Finset.mul_sum]
          exact Finset.sum_congr rfl fun j' _ => by ring
      _ = ((n : ℝ) - 1) * (Qᵀ * (corrcoef X * Q)) k l := by
          have hmm : (Qᵀ * (corrcoef X * Q)) k l =
              ∑ j, Q j k * ∑ j', corrcoef X j j' * Q j' l := by
            rw [Matrix.mul_apply]
            refine Finset.sum_congr rfl fun j _ => ?_
            rw [Matrix.transpose_apply, Matrix.mul_apply]
          rw [hmm]
  rw [key, mul_div_cancel_left₀ _ hd]

/-- Conjugating by the sorted eigenvector matrix is conjugating by the
unsorted one at permuted positions. -/
theorem sorted_conj_apply {m : ℕ} (C U : Matrix (Fin m) (Fin m) ℝ)
    (v : Fin m → ℝ) (k l : Fin m) :
    ((sortedEig v U)ᵀ * (C * sortedEig v U)) k l =
      (Uᵀ * (C * U)) (argsortDesc v k) (argsortDesc v l) := by
  simp [Matrix.mul_apply, Matrix.transpose_apply, sortedEig]

/-- The real form of the unitary diagonalization: the eigenvector matrix of a
real symmetric matrix conjugates it to the diagonal of its eigenvalues. -/
theorem conj_eigenvectorUnitary_diag {m : ℕ} {C : Matrix (Fin m) (Fin m) ℝ}
    (h : C.IsHermitian) :
    ((h.eigenvectorUnitary : Matrix (Fin m) (Fin m) ℝ)ᵀ *
        (C * (h.eigenvectorUnitary : Matrix (Fin m) (Fin m) ℝ))) =
      Matrix.diagonal h.eigenvalues := by
  have hst := h.star_mul_self_mul_eq_diagonal
  rw [Matrix.star_eq_conjTranspose,
    Matrix.conjTranspose_eq_transpose_of_trivial,
    RCLike.ofReal_real_eq_id, Function.id_comp] at hst
  rw [← Matrix.mul_assoc]
  exact hst

/-- C6: the scores matrix obtained by projecting the standardized observations
onto the (sorted) eigenvector columns has per-column mean exactly zero, and
its sample covariance matrix is diagonal: the covariance of two distinct score
columns is zero, so distinct score columns are uncorrelated. -/
theorem scores_mean_zero_cov_diagonal {n m : ℕ}
    (X : Matrix (Fin n) (Fin m) ℝ) (hn : 2 ≤ n)
    (hv : ∀ j, 0 < colVar X j) :
    (∀ k, colMean (scoresM X) k = 0) ∧
    ∀ k l, k ≠ l → covMatrix (scoresM X) k l = 0 := by
  have hn0 : (n : ℝ) ≠ 0 := by
    have : (0 : ℕ) < n := lt_of_lt_of_le (by norm_num) hn
    exact_mod_cast this.ne'
  have h := corrcoef_isHermitian X
  constructor
  · intro k
    unfold scoresM
    exact colMean_scores_zero X _ k hn0
  · intro k l hkl
    unfold scoresM
    rw [covMatrix_scores X _ hn hv k l]
    simp only [linalgEig_of_hermitian h]
    rw [sorted_conj_apply, conj_eigenvectorUnitary_diag h]
    exact Matrix.diagonal_apply_ne _
      fun hc => hkl ((argsortDesc _).injective hc)

theorem scores_mean_zero_cov_diagonal_witness :
    ((2 ≤ 2) ∧ ∀ j : Fin 1, 0 < colVar obsW j) ∧
    ((∀ k, colMean (scoresM obsW) k = 0) ∧
      ∀ k l, k ≠ l → covMatrix (scoresM obsW) k l = 0) := by
  have hv : ∀ j : Fin 1, 0 < colVar obsW j := by
    intro j
    rw [obsW_colVar]
    norm_num
  exact ⟨⟨le_refl 2, hv⟩, scores_mean_zero_cov_diagonal obsW (le_refl 2) hv⟩

end NhanesDimred
